import Mathlib

/-!
Verification of the duplicate-grouping and representative-selection engine of
biometal-qc-tools (`src/bin/pcr_dedup.rs` and `src/bin/optical_dedup.rs`).

Modelling conventions:
* A minimizer fingerprint is the list of its 64-bit hash values, modelled as
  `List ℕ` (the Rust code only ever reads `m.hash` from a `Minimizer`).
* Rust `HashSet<u64>` used for set arithmetic in the Jaccard computation is
  modelled as `Finset ℕ` via `List.toFinset` (set semantics).
* The `assigned: HashSet<usize>` of the clustering loop is modelled as a
  `List ℕ` used only through membership tests and insertion, which is the
  only way the Rust code uses it.
* `f64` similarity / quality values are modelled as `ℚ`; all arithmetic the
  code performs on them (division of small non-negative integers, comparison,
  mean) is exact in the ranges involved.
* Fallible Rust code (`Result`, panics) is modelled with `Option` / `Except`.
-/

/- Restore definitional reducibility of the exact rational operations so that
concrete similarity values can be evaluated by `decide`. -/
attribute [local semireducible] Rat.mul Rat.inv Rat.sub Rat.add

/-- Embedding of `calculate_jaccard_similarity` (src/bin/pcr_dedup.rs:303-321):
returns 0.0 if either minimizer list is empty, otherwise
`|set1 ∩ set2| / |set1 ∪ set2|` over the hash sets (with a guard returning 0.0
for an empty union). -/
def calculate_jaccard_similarity (minimizers1 minimizers2 : List ℕ) : ℚ :=
  if minimizers1 = [] ∨ minimizers2 = [] then 0
  else
    let set1 := minimizers1.toFinset
    let set2 := minimizers2.toFinset
    let intersection_size := (set1 ∩ set2).card
    let union_size := (set1 ∪ set2).card
    if union_size = 0 then 0 else (intersection_size : ℚ) / (union_size : ℚ)

/-- Embedding of the inner scan of `find_pcr_duplicates`
(src/bin/pcr_dedup.rs:277-291): for each candidate index `j` (the list `js` is
instantiated with `(i+1)..n`), skip it if already assigned, otherwise add it to
the current cluster and to `assigned` when `accept i j` holds
(`similarity >= threshold` in the source).  The engine is generic in `accept`
because the positional tool shares the same grouping skeleton. -/
def cluster_scan (accept : ℕ → ℕ → Bool) (i : ℕ) :
    List ℕ → List ℕ → List ℕ → List ℕ × List ℕ
  | [], cluster, assigned => (cluster, assigned)
  | j :: js, cluster, assigned =>
    if j ∈ assigned then
      cluster_scan accept i js cluster assigned
    else if accept i j then
      cluster_scan accept i js (cluster ++ [j]) (j :: assigned)
    else
      cluster_scan accept i js cluster assigned

/-- Embedding of the anchor loop of `find_pcr_duplicates`
(src/bin/pcr_dedup.rs:268-297): each unassigned index `i` of the anchor list
opens a cluster `[i]`, is inserted into `assigned`, scans all subsequent
indices `(i+1)..n`, and the cluster is kept only when its size exceeds 1.
Returns the cluster list together with the final `assigned` set. -/
def cluster_loop (accept : ℕ → ℕ → Bool) (n : ℕ) :
    List ℕ → List (List ℕ) → List ℕ → List (List ℕ) × List ℕ
  | [], clusters, assigned => (clusters, assigned)
  | i :: is, clusters, assigned =>
    if i ∈ assigned then
      cluster_loop accept n is clusters assigned
    else
      let p := cluster_scan accept i (List.range' (i + 1) (n - (i + 1))) [i] (i :: assigned)
      if 1 < p.1.length then
        cluster_loop accept n is (clusters ++ [p.1]) p.2
      else
        cluster_loop accept n is clusters p.2

/-- The batch starts produced by `(0..n).step_by(b)`
(src/bin/pcr_dedup.rs:261): `0, b, 2b, …` as long as the start is below `n`,
i.e. `⌈n / b⌉` of them (meaningful only for `b > 0`; `step_by(0)` panics). -/
def batch_starts (n b : ℕ) : List ℕ :=
  (List.range ((n + b - 1) / b)).map (fun k => k * b)

/-- The anchor-index sequence produced by the batched outer loops of
`find_pcr_duplicates` (src/bin/pcr_dedup.rs:261-268):
`for batch_start in (0..n).step_by(b)` followed by
`for i in batch_start..min(batch_start+b, n)`. -/
def batches (n b : ℕ) : List ℕ :=
  (batch_starts n b).flatMap (fun s => List.range' s (min (s + b) n - s))

/-- The acceptance test of the PCR clustering loop
(src/bin/pcr_dedup.rs:282-287): `similarity >= threshold` where the
similarity is the Jaccard index of the two records' minimizer signatures. -/
def pcr_accept (sigs : List (List ℕ)) (threshold : ℚ) (i j : ℕ) : Bool :=
  decide (threshold ≤ calculate_jaccard_similarity (sigs.getD i []) (sigs.getD j []))

/-- Embedding of `find_pcr_duplicates` (src/bin/pcr_dedup.rs:250-301).
The source sets `batch_size = min(1000, n_records)` and iterates
`(0..n_records).step_by(batch_size)`; when the input is empty the batch size
is 0 and `step_by(0)` panics, modelled here as `none`. -/
def find_pcr_duplicates (sigs : List (List ℕ)) (threshold : ℚ) :
    Option (List (List ℕ)) :=
  let n := sigs.length
  let batch_size := min 1000 n
  if n = 0 then none
  else some (cluster_loop (pcr_accept sigs threshold) n (batches n batch_size) [] []).1

/-- The unbatched single anchor loop scanning anchor indices `0..n` in order;
the reference point for the batching-independence claim. -/
def find_pcr_duplicates_unbatched (sigs : List (List ℕ)) (threshold : ℚ) :
    List (List ℕ) :=
  (cluster_loop (pcr_accept sigs threshold) sigs.length
    (List.range sigs.length) [] []).1

/-- Embedding of `calculate_mean_quality`
(src/bin/pcr_dedup.rs:341-349, identical copy in src/bin/optical_dedup.rs:244-252):
returns 0.0 on an empty quality string, otherwise the mean of `(q - 33)` over
the quality bytes.  The unsigned subtraction `q - 33` underflows (panics in a
checked build) whenever a byte is below 33; that branch is modelled as `none`. -/
def calculate_mean_quality (quality : List ℕ) : Option ℚ :=
  if quality = [] then some 0
  else if quality.any (fun q => q < 33) then none
  else some ((((quality.map (fun q => q - 33)).sum : ℕ) : ℚ) / (quality.length : ℚ))

/-- The fold of `select_best_quality_read` over the cluster tail
(src/bin/pcr_dedup.rs:330-336): the running best is replaced only on a
strictly greater mean quality. -/
def select_loop (records : List (List ℕ)) :
    List ℕ → ℕ → ℚ → Option ℕ
  | [], best_idx, _ => some best_idx
  | idx :: rest, best_idx, best_quality =>
    match calculate_mean_quality (records.getD idx []) with
    | none => none
    | some quality =>
      if best_quality < quality then
        select_loop records rest idx quality
      else
        select_loop records rest best_idx best_quality

/-- Embedding of `select_best_quality_read` (src/bin/pcr_dedup.rs:323-339).
`records` carries each record's quality-byte list (the only field the
function reads).  The source indexes `cluster[0]`, which panics on an empty
cluster, modelled as `none`. -/
def select_best_quality_read (cluster : List ℕ) (records : List (List ℕ)) :
    Option ℕ :=
  match cluster with
  | [] => none
  | c0 :: rest =>
    match calculate_mean_quality (records.getD c0 []) with
    | none => none
    | some q0 => select_loop records rest c0 q0

/-- The first-occurrence representative: `cluster[0]`
(src/bin/pcr_dedup.rs:204, src/bin/optical_dedup.rs:180). -/
def first_occurrence_rep (cluster : List ℕ) : ℕ :=
  cluster.headD 0

/-- Embedding of the removal-set construction shared by
`process_pcr_duplicates` (src/bin/pcr_dedup.rs:196-214) and
`process_optical_duplicates` (src/bin/optical_dedup.rs:174-192): for every
group of size > 1 a representative is chosen by `rep` and every other member
is marked as a duplicate. -/
def duplicate_indices (groups : List (List ℕ)) (rep : List ℕ → ℕ) : List ℕ :=
  groups.flatMap
    (fun cluster =>
      if 1 < cluster.length then cluster.filter (fun idx => idx ≠ rep cluster)
      else [])

/-- The output-writing loop of both tools
(src/bin/pcr_dedup.rs:224-229, src/bin/optical_dedup.rs:202-207), with the
running enumeration index made explicit. -/
def output_go {α : Type} (dup : List ℕ) : ℕ → List α → List α
  | _, [] => []
  | i, r :: rs =>
    if i ∈ dup then output_go dup (i + 1) rs
    else r :: output_go dup (i + 1) rs

/-- Replaying the record stream in order, suppressing the duplicate indices. -/
def output_records {α : Type} (records : List α) (dup : List ℕ) : List α :=
  output_go dup 0 records

/-- Illumina coordinate metadata, following the field list of
`create_default_coordinate` (src/bin/optical_dedup.rs:255-269). -/
structure IlluminaCoordinate where
  instrument : String
  run_id : ℕ
  flowcell : String
  lane : ℕ
  tile : ℕ
  x : ℤ
  y : ℤ
  read : ℕ
  filtered : Bool
  control : ℕ
  index : String
deriving DecidableEq, Inhabited, Repr

/-- Embedding of `create_default_coordinate` (src/bin/optical_dedup.rs:255-269):
the sentinel coordinate assigned to every read whose Illumina metadata fails
to parse (src/bin/optical_dedup.rs:142-146). -/
def create_default_coordinate : IlluminaCoordinate where
  instrument := "UNKNOWN"
  run_id := 0
  flowcell := "UNKNOWN"
  lane := 0
  tile := 0
  x := 0
  y := 0
  read := 1
  filtered := false
  control := 0
  index := ""

/-- Modelled from the spec: the proximity test of the positional
SimilarityMetric (spec §4.1).  The implementation lives in the external
`biometal::operations::spatial` crate and is not part of this repository;
per the spec, two coordinates are comparable only when lane and tile match,
and are duplicates when the Euclidean pixel distance on (x, y) is within the
threshold (stated on squares to stay in exact arithmetic). -/
def coord_close (a b : IlluminaCoordinate) (threshold : ℚ) : Bool :=
  decide (a.lane = b.lane ∧ a.tile = b.tile ∧
    (((a.x - b.x : ℤ) : ℚ) ^ 2 + ((a.y - b.y : ℤ) : ℚ) ^ 2 ≤ threshold ^ 2))

/-- Modelled from the spec: `find_optical_duplicates` is delegated to the
external `biometal::operations::spatial` crate (src/bin/optical_dedup.rs:163-166);
the spec (§4.2, §4.6) specifies an engine with the greedy chained-assignment
contract — groups of mutually proximate coordinates under the same lane/tile
constraint — so it is modelled with the shared clustering skeleton. -/
def find_optical_duplicates (coords : List IlluminaCoordinate) (threshold : ℚ) :
    List (List ℕ) :=
  (cluster_loop
    (fun i j => coord_close (coords.getD i default) (coords.getD j default) threshold)
    coords.length (List.range coords.length) [] []).1

/-- Embedding of the configuration validation of `main` in pcr_dedup
(src/bin/pcr_dedup.rs:98-101,113-121): a threshold outside [0, 1] is rejected
before `process_pcr_duplicates` ever runs (hence before any record is read). -/
def pcr_dedup_main (threshold : ℚ) (sigs : List (List ℕ)) :
    Except String (Option (List (List ℕ))) :=
  if threshold < 0 ∨ 1 < threshold then
    Except.error "Similarity threshold must be between 0.0 and 1.0"
  else
    Except.ok (find_pcr_duplicates sigs threshold)

/-- Embedding of `main` in optical_dedup (src/bin/optical_dedup.rs:74-96):
the parsed distance threshold is passed straight to processing — there is no
validation of any kind between parsing and `process_optical_duplicates`. -/
def optical_dedup_main (threshold : ℚ) (coords : List IlluminaCoordinate) :
    Except String (List (List ℕ)) :=
  Except.ok (find_optical_duplicates coords threshold)

/-- Pairwise disjointness of the returned groups: no index occurs in two
distinct groups. -/
def DisjointClusters (cs : List (List ℕ)) : Prop :=
  cs.Pairwise (fun c d => ∀ x ∈ c, x ∉ d)

/-- Structure of every cluster the engine materializes: an anchor followed by
a non-empty tail of later indices, each accepted against the anchor (and only
against the anchor). -/
def GoodCluster (accept : ℕ → ℕ → Bool) (n : ℕ) (c : List ℕ) : Prop :=
  ∃ a d, c = a :: d ∧ d ≠ [] ∧ ∀ x ∈ d, accept a x = true ∧ a < x ∧ x < n

/-! ### Basic lemmas about the clustering engine -/

/-- The inner scan only ever appends to the cluster under construction. -/
theorem cluster_scan_cluster_app (accept : ℕ → ℕ → Bool) (i : ℕ) :
    ∀ (js c A : List ℕ), ∃ d, (cluster_scan accept i js c A).1 = c ++ d := by
  intro js
  induction js with
  | nil => intro c A; exact ⟨[], by simp [cluster_scan]⟩
  | cons j js ih =>
    intro c A
    rw [cluster_scan]
    by_cases hjA : j ∈ A
    · simpa [hjA] using ih c A
    · by_cases hacc : accept i j = true
      · obtain ⟨d, hd⟩ := ih (c ++ [j]) (j :: A)
        exact ⟨j :: d, by simp [hjA, hacc, hd]⟩
      · simpa [hjA, hacc] using ih c A

/-- Membership in the cluster produced by the inner scan: exactly the initial
cluster plus the fresh candidates accepted against the anchor. -/
theorem mem_cluster_scan_cluster (accept : ℕ → ℕ → Bool) (i x : ℕ) :
    ∀ (js c A : List ℕ), js.Nodup →
      (x ∈ (cluster_scan accept i js c A).1 ↔
        x ∈ c ∨ (x ∈ js ∧ x ∉ A ∧ accept i x = true)) := by
  intro js
  induction js with
  | nil => intro c A _; simp [cluster_scan]
  | cons j js ih =>
    intro c A hnd
    obtain ⟨hjs, hnd'⟩ := List.nodup_cons.mp hnd
    rw [cluster_scan]
    by_cases hjA : j ∈ A
    · rw [if_pos hjA, ih c A hnd']
      by_cases hxj : x = j
      · subst hxj; simp [hjA, hjs]
      · simp [List.mem_cons, hxj]
    · rw [if_neg hjA]
      by_cases hacc : accept i j = true
      · rw [if_pos hacc, ih (c ++ [j]) (j :: A) hnd']
        by_cases hxj : x = j
        · subst hxj; simp [hjA, hacc]
        · simp only [List.mem_append, List.mem_cons, List.mem_singleton, hxj,
            or_false, false_or]
          tauto
      · rw [if_neg hacc, ih c A hnd']
        by_cases hxj : x = j
        · subst hxj; simp [hjs, hacc]
        · simp [List.mem_cons, hxj]

/-- Membership in the assigned set after the inner scan. -/
theorem mem_cluster_scan_assigned (accept : ℕ → ℕ → Bool) (i x : ℕ) :
    ∀ (js c A : List ℕ), js.Nodup →
      (x ∈ (cluster_scan accept i js c A).2 ↔
        x ∈ A ∨ (x ∈ js ∧ x ∉ A ∧ accept i x = true)) := by
  intro js
  induction js with
  | nil => intro c A _; simp [cluster_scan]
  | cons j js ih =>
    intro c A hnd
    obtain ⟨hjs, hnd'⟩ := List.nodup_cons.mp hnd
    rw [cluster_scan]
    by_cases hjA : j ∈ A
    · rw [if_pos hjA, ih c A hnd']
      by_cases hxj : x = j
      · subst hxj; simp [hjA, hjs]
      · simp [List.mem_cons, hxj]
    · rw [if_neg hjA]
      by_cases hacc : accept i j = true
      · rw [if_pos hacc, ih (c ++ [j]) (j :: A) hnd']
        by_cases hxj : x = j
        · subst hxj; simp [hjA, hacc]
        · simp only [List.mem_cons, hxj, or_false, false_or]
          try tauto
      · rw [if_neg hacc, ih c A hnd']
        by_cases hxj : x = j
        · subst hxj; simp [hjs, hjA, hacc]
        · simp [List.mem_cons, hxj]

/-- Every cluster member after the inner scan has been inserted into the
assigned set, provided the initial cluster was. -/
theorem cluster_scan_cluster_subset_assigned (accept : ℕ → ℕ → Bool) (i : ℕ) :
    ∀ (js c A : List ℕ), (∀ y ∈ c, y ∈ A) →
      ∀ y ∈ (cluster_scan accept i js c A).1, y ∈ (cluster_scan accept i js c A).2 := by
  intro js
  induction js with
  | nil => intro c A h; simpa [cluster_scan] using h
  | cons j js ih =>
    intro c A h
    rw [cluster_scan]
    by_cases hjA : j ∈ A
    · rw [if_pos hjA]; exact ih c A h
    · rw [if_neg hjA]
      by_cases hacc : accept i j = true
      · rw [if_pos hacc]
        refine ih (c ++ [j]) (j :: A) ?_
        intro y hy
        rcases List.mem_append.mp hy with hy | hy
        · exact List.mem_cons_of_mem _ (h y hy)
        · simp [List.mem_singleton.mp hy]
      · rw [if_neg hacc]; exact ih c A h

/-- The assigned set only grows during the inner scan. -/
theorem cluster_scan_assigned_mono (accept : ℕ → ℕ → Bool) (i : ℕ) :
    ∀ (js c A : List ℕ), ∀ y ∈ A, y ∈ (cluster_scan accept i js c A).2 := by
  intro js
  induction js with
  | nil => intro c A y hy; simpa [cluster_scan] using hy
  | cons j js ih =>
    intro c A y hy
    rw [cluster_scan]
    by_cases hjA : j ∈ A
    · rw [if_pos hjA]; exact ih c A y hy
    · rw [if_neg hjA]
      by_cases hacc : accept i j = true
      · rw [if_pos hacc]; exact ih (c ++ [j]) (j :: A) y (List.mem_cons_of_mem _ hy)
      · rw [if_neg hacc]; exact ih c A y hy

/-- The scanned cluster has no repeated member. -/
theorem cluster_scan_cluster_nodup (accept : ℕ → ℕ → Bool) (i : ℕ) :
    ∀ (js c A : List ℕ), c.Nodup → js.Nodup → (∀ y ∈ c, y ∈ A) →
      (cluster_scan accept i js c A).1.Nodup := by
  intro js
  induction js with
  | nil => intro c A hc _ _; simpa [cluster_scan] using hc
  | cons j js ih =>
    intro c A hc hnd h
    obtain ⟨hjs, hnd'⟩ := List.nodup_cons.mp hnd
    rw [cluster_scan]
    by_cases hjA : j ∈ A
    · rw [if_pos hjA]; exact ih c A hc hnd' h
    · rw [if_neg hjA]
      by_cases hacc : accept i j = true
      · rw [if_pos hacc]
        refine ih (c ++ [j]) (j :: A) ?_ hnd' ?_
        · refine List.Nodup.append hc (List.nodup_singleton j) ?_
          intro a ha hb
          rw [List.mem_singleton.mp hb] at ha
          exact hjA (h j ha)
        · intro y hy
          rcases List.mem_append.mp hy with hy | hy
          · exact List.mem_cons_of_mem _ (h y hy)
          · simp [List.mem_singleton.mp hy]
      · rw [if_neg hacc]; exact ih c A hc hnd' h

/-- The anchor loop only appends to the cluster accumulator, and neither the
new clusters nor the final assigned set depend on the accumulator. -/
theorem cluster_loop_acc (accept : ℕ → ℕ → Bool) (n : ℕ) :
    ∀ (is : List ℕ) (cs : List (List ℕ)) (A : List ℕ),
      cluster_loop accept n is cs A =
        (cs ++ (cluster_loop accept n is [] A).1, (cluster_loop accept n is [] A).2) := by
  intro is
  induction is with
  | nil => intro cs A; simp [cluster_loop]
  | cons i is ih =>
    intro cs A
    rw [cluster_loop, cluster_loop]
    by_cases hiA : i ∈ A
    · rw [if_pos hiA, if_pos hiA, ih cs A]
    · rw [if_neg hiA, if_neg hiA]
      by_cases hlen :
          1 < (cluster_scan accept i (List.range' (i + 1) (n - (i + 1))) [i] (i :: A)).1.length
      · rw [if_pos hlen, if_pos hlen]
        simp only [List.nil_append]
        rw [ih (cs ++ [(cluster_scan accept i (List.range' (i + 1) (n - (i + 1))) [i] (i :: A)).1]),
          ih [(cluster_scan accept i (List.range' (i + 1) (n - (i + 1))) [i] (i :: A)).1]]
        simp
      · rw [if_neg hlen, if_neg hlen, ih cs]

/-- Clusters already accumulated survive to the final output. -/
theorem cluster_loop_mem_mono (accept : ℕ → ℕ → Bool) (n : ℕ)
    (is : List ℕ) (cs : List (List ℕ)) (A : List ℕ) (c : List ℕ) (hc : c ∈ cs) :
    c ∈ (cluster_loop accept n is cs A).1 := by
  rw [cluster_loop_acc]
  exact List.mem_append_left _ hc

/-- Splitting the anchor list splits the loop into two sequential runs. -/
theorem cluster_loop_append (accept : ℕ → ℕ → Bool) (n : ℕ) :
    ∀ (l1 l2 : List ℕ) (cs : List (List ℕ)) (A : List ℕ),
      cluster_loop accept n (l1 ++ l2) cs A =
        cluster_loop accept n l2 (cluster_loop accept n l1 cs A).1
          (cluster_loop accept n l1 cs A).2 := by
  intro l1
  induction l1 with
  | nil => intro l2 cs A; simp [cluster_loop]
  | cons i l1 ih =>
    intro l2 cs A
    rw [List.cons_append, cluster_loop, cluster_loop]
    by_cases hiA : i ∈ A
    · rw [if_pos hiA, if_pos hiA, ih]
    · rw [if_neg hiA, if_neg hiA]
      by_cases hlen :
          1 < (cluster_scan accept i (List.range' (i + 1) (n - (i + 1))) [i] (i :: A)).1.length
      · rw [if_pos hlen, if_pos hlen, ih]
      · rw [if_neg hlen, if_neg hlen, ih]

/-- Candidates scanned for anchor `i` are exactly the indices strictly between
`i` and `n`. -/
theorem mem_scan_range (i n x : ℕ) :
    x ∈ List.range' (i + 1) (n - (i + 1)) ↔ i < x ∧ x < n := by
  rw [List.mem_range']
  constructor
  · rintro ⟨k, hk, rfl⟩
    omega
  · intro h
    exact ⟨x - (i + 1), by omega, by omega⟩

/-- Master invariant of the anchor loop: starting from mutually disjoint,
well-formed clusters all of whose members are assigned, the loop returns
mutually disjoint, well-formed clusters all of whose members are assigned,
and never unassigns an index. -/
theorem cluster_loop_invariant (accept : ℕ → ℕ → Bool) (n : ℕ) :
    ∀ (is : List ℕ) (cs : List (List ℕ)) (A : List ℕ),
      (∀ c ∈ cs, ∀ x ∈ c, x ∈ A) →
      DisjointClusters cs →
      (∀ c ∈ cs, GoodCluster accept n c ∧ c.Nodup) →
      (∀ c ∈ (cluster_loop accept n is cs A).1, ∀ x ∈ c,
          x ∈ (cluster_loop accept n is cs A).2) ∧
      DisjointClusters (cluster_loop accept n is cs A).1 ∧
      (∀ c ∈ (cluster_loop accept n is cs A).1, GoodCluster accept n c ∧ c.Nodup) ∧
      (∀ x ∈ A, x ∈ (cluster_loop accept n is cs A).2) := by
  intro is
  induction is with
  | nil =>
    intro cs A h1 h2 h3
    refine ⟨?_, ?_, ?_, ?_⟩ <;> simpa [cluster_loop]
  | cons i is ih =>
    intro cs A h1 h2 h3
    have hjs : (List.range' (i + 1) (n - (i + 1))).Nodup := List.nodup_range' _ _
    by_cases hiA : i ∈ A
    · rw [cluster_loop, if_pos hiA]
      exact ih cs A h1 h2 h3
    · rw [cluster_loop, if_neg hiA]
      simp only []
      set p := cluster_scan accept i (List.range' (i + 1) (n - (i + 1))) [i] (i :: A) with hp
      have hfresh : ∀ x ∈ p.1, x = i ∨ (i < x ∧ x < n ∧ x ∉ A ∧ accept i x = true) := by
        intro x hx
        rcases (mem_cluster_scan_cluster accept i x _ [i] (i :: A) hjs).mp hx with h | ⟨hr, hA, hacc⟩
        · exact Or.inl (List.mem_singleton.mp h)
        · rcases (mem_scan_range i n x).mp hr with ⟨hlt, hltn⟩
          exact Or.inr ⟨hlt, hltn, fun hxA => hA (List.mem_cons_of_mem _ hxA), hacc⟩
      have hsub : ∀ y ∈ p.1, y ∈ p.2 := by
        refine cluster_scan_cluster_subset_assigned accept i _ [i] (i :: A) ?_
        intro y hy
        simp [List.mem_singleton.mp hy]
      have hAmono : ∀ y ∈ i :: A, y ∈ p.2 :=
        cluster_scan_assigned_mono accept i _ [i] (i :: A)
      have hnodup : p.1.Nodup := by
        refine cluster_scan_cluster_nodup accept i _ [i] (i :: A)
          (List.nodup_singleton i) hjs ?_
        intro y hy
        simp [List.mem_singleton.mp hy]
      have hcross : ∀ c ∈ cs, ∀ x ∈ c, x ∉ p.1 := by
        intro c hc x hx hxp
        have hxA : x ∈ A := h1 c hc x hx
        rcases hfresh x hxp with rfl | ⟨_, _, hnA, _⟩
        · exact hiA hxA
        · exact hnA hxA
      by_cases hlen : 1 < p.1.length
      · rw [if_pos hlen]
        have h1' : ∀ c ∈ cs ++ [p.1], ∀ x ∈ c, x ∈ p.2 := by
          intro c hc x hx
          rcases List.mem_append.mp hc with hc | hc
          · exact hAmono x (List.mem_cons_of_mem _ (h1 c hc x hx))
          · rw [List.mem_singleton.mp hc] at hx
            exact hsub x hx
        have h2' : DisjointClusters (cs ++ [p.1]) := by
          rw [DisjointClusters, List.pairwise_append]
          refine ⟨h2, List.pairwise_singleton _ _, ?_⟩
          intro c hc d hd
          rw [List.mem_singleton.mp hd]
          exact hcross c hc
        have h3' : ∀ c ∈ cs ++ [p.1], GoodCluster accept n c ∧ c.Nodup := by
          intro c hc
          rcases List.mem_append.mp hc with hc | hc
          · exact h3 c hc
          · rw [List.mem_singleton.mp hc]
            obtain ⟨d, hd⟩ := cluster_scan_cluster_app accept i _ [i] (i :: A)
            rw [← hp] at hd
            have hd' : p.1 = i :: d := by simpa using hd
            have hind : i ∉ d := by
              rw [hd'] at hnodup
              exact (List.nodup_cons.mp hnodup).1
            refine ⟨⟨i, d, hd', ?_, ?_⟩, hnodup⟩
            · intro hdnil
              rw [hd', hdnil] at hlen
              simp at hlen
            · intro x hx
              have hxp : x ∈ p.1 := by rw [hd']; exact List.mem_cons_of_mem _ hx
              rcases hfresh x hxp with rfl | ⟨hlt, hltn, _, hacc⟩
              · exact absurd hx hind
              · exact ⟨hacc, hlt, hltn⟩
        have := ih (cs ++ [p.1]) p.2 h1' h2' h3'
        exact ⟨this.1, this.2.1, this.2.2.1,
          fun x hx => this.2.2.2 x (hAmono x (List.mem_cons_of_mem _ hx))⟩
      · rw [if_neg hlen]
        have h1' : ∀ c ∈ cs, ∀ x ∈ c, x ∈ p.2 := by
          intro c hc x hx
          exact hAmono x (List.mem_cons_of_mem _ (h1 c hc x hx))
        have := ih cs p.2 h1' h2 h3
        exact ⟨this.1, this.2.1, this.2.2.1,
          fun x hx => this.2.2.2 x (hAmono x (List.mem_cons_of_mem _ hx))⟩

/-- The concatenation of the first `m` batches covers exactly the anchor
indices `0..min (m*b) n` in increasing order. -/
theorem batches_take (n b : ℕ) :
    ∀ m : ℕ, ((List.range m).map (fun k => k * b)).flatMap
        (fun s => List.range' s (min (s + b) n - s)) =
      List.range' 0 (min (m * b) n) := by
  intro m
  induction m with
  | zero => simp
  | succ m ih =>
    rw [List.range_succ, List.map_append, List.flatMap_append, ih]
    simp only [List.map_cons, List.map_nil, List.flatMap_cons, List.flatMap_nil,
      List.append_nil]
    by_cases h : n ≤ m * b
    · have h1 : min (m * b) n = n := by omega
      have h2 : min (m * b + b) n = n := by omega
      have h3 : min ((m + 1) * b) n = n := by
        have he : (m + 1) * b = m * b + b := by ring
        omega
      rw [h1, h2, h3]
      have : n - m * b = 0 := by omega
      simp [this]
    · have h1 : min (m * b) n = m * b := by omega
      rw [h1]
      have := List.range'_append 0 (m * b) (min (m * b + b) n - m * b) 1
      simp only [one_mul, zero_add] at this
      rw [this]
      congr 1
      have h4 : (m + 1) * b = m * b + b := by ring
      rw [h4]
      omega

/-- For a positive batch size the batched anchor order is exactly `0..n`:
the batching is a pure partition of the single scan. -/
theorem batches_eq_range (n b : ℕ) (hb : 0 < b) :
    batches n b = List.range n := by
  rw [batches, batch_starts, batches_take n b ((n + b - 1) / b)]
  have h1 := Nat.div_add_mod (n + b - 1) b
  have h2 : (n + b - 1) % b < b := Nat.mod_lt _ hb
  have h3 : n ≤ ((n + b - 1) / b) * b := by
    rw [Nat.mul_comm]
    rcases Nat.eq_zero_or_pos n with rfl | hn
    · simp
    · omega
  rw [min_eq_right h3, List.range_eq_range']

/-- On a non-empty input the batched source loop agrees with the unbatched
single scan; on the empty input the source panics (`step_by(0)`). -/
theorem find_pcr_duplicates_eq_unbatched (sigs : List (List ℕ)) (threshold : ℚ)
    (h : sigs ≠ []) :
    find_pcr_duplicates sigs threshold =
      some (find_pcr_duplicates_unbatched sigs threshold) := by
  have hn : sigs.length ≠ 0 := fun hl => h (List.eq_nil_of_length_eq_zero hl)
  rw [find_pcr_duplicates, find_pcr_duplicates_unbatched]
  simp only [if_neg hn]
  rw [batches_eq_range _ _ (by omega)]

/-- Shape of a successful run of `find_pcr_duplicates`: the groups are those
of the unbatched anchor scan over `0..n`. -/
theorem find_pcr_duplicates_some (sigs : List (List ℕ)) (threshold : ℚ)
    (gs : List (List ℕ)) (h : find_pcr_duplicates sigs threshold = some gs) :
    gs = (cluster_loop (pcr_accept sigs threshold) sigs.length
      (List.range sigs.length) [] []).1 := by
  by_cases hs : sigs = []
  · rw [hs] at h
    simp [find_pcr_duplicates] at h
  · rw [find_pcr_duplicates_eq_unbatched sigs threshold hs] at h
    exact (Option.some_inj.mp h).symm

/-- Jaccard similarity against an empty fingerprint is 0 (left). -/
theorem calculate_jaccard_similarity_nil_left (m : List ℕ) :
    calculate_jaccard_similarity [] m = 0 := by
  simp [calculate_jaccard_similarity]

/-- Jaccard similarity against an empty fingerprint is 0 (right). -/
theorem calculate_jaccard_similarity_nil_right (m : List ℕ) :
    calculate_jaccard_similarity m [] = 0 := by
  simp [calculate_jaccard_similarity]

/-- Jaccard self-similarity of a non-empty fingerprint is 1. -/
theorem calculate_jaccard_similarity_self (m : List ℕ) (h : m ≠ []) :
    calculate_jaccard_similarity m m = 1 := by
  rw [calculate_jaccard_similarity]
  rw [if_neg (by simp [h])]
  simp only [Finset.inter_self, Finset.union_self]
  have hcard : m.toFinset.card ≠ 0 := by
    have : m.toFinset.Nonempty := (List.toFinset_nonempty_iff m).mpr h
    exact Finset.card_ne_zero_of_mem this.choose_spec
  rw [if_neg hcard]
  rw [div_self (by exact_mod_cast hcard)]

/-- Membership in the removal set: exactly the non-representative members of
groups of size > 1. -/
theorem mem_duplicate_indices (groups : List (List ℕ)) (rep : List ℕ → ℕ) (x : ℕ) :
    x ∈ duplicate_indices groups rep ↔
      ∃ c ∈ groups, 1 < c.length ∧ x ∈ c ∧ x ≠ rep c := by
  rw [duplicate_indices, List.mem_flatMap]
  constructor
  · rintro ⟨c, hc, hx⟩
    by_cases hlen : 1 < c.length
    · rw [if_pos hlen, List.mem_filter] at hx
      exact ⟨c, hc, hlen, hx.1, by simpa using hx.2⟩
    · rw [if_neg hlen] at hx
      exact absurd hx (List.not_mem_nil x)
  · rintro ⟨c, hc, hlen, hx, hne⟩
    exact ⟨c, hc, by rw [if_pos hlen, List.mem_filter]; exact ⟨hx, by simpa using hne⟩⟩

/-- With pairwise disjoint groups, an index determines its group. -/
theorem disjoint_clusters_mem_unique :
    ∀ (gs : List (List ℕ)), DisjointClusters gs →
      ∀ c ∈ gs, ∀ c' ∈ gs, ∀ x, x ∈ c → x ∈ c' → c = c' := by
  intro gs
  induction gs with
  | nil => intro _ c hc; exact absurd hc (List.not_mem_nil c)
  | cons g gs ih =>
    intro hd c hc c' hc' x hxc hxc'
    obtain ⟨hg, hd'⟩ := List.pairwise_cons.mp hd
    rcases List.mem_cons.mp hc with hceq | hcm
    · rcases List.mem_cons.mp hc' with hceq' | hcm'
      · rw [hceq, hceq']
      · exact absurd hxc' (hg c' hcm' x (hceq ▸ hxc))
    · rcases List.mem_cons.mp hc' with hceq' | hcm'
      · exact absurd hxc (hg c hcm x (hceq' ▸ hxc'))
      · exact ih hd' c hcm c' hcm' x hxc hxc'

/-- Removing one element present in a duplicate-free list shortens it by one. -/
theorem length_filter_ne (c : List ℕ) (hnd : c.Nodup) (r : ℕ) (hr : r ∈ c) :
    (c.filter (fun x => x ≠ r)).length = c.length - 1 := by
  induction c with
  | nil => exact absurd hr (List.not_mem_nil r)
  | cons a c ih =>
    obtain ⟨hac, hnd'⟩ := List.nodup_cons.mp hnd
    rw [List.filter_cons]
    by_cases har : a = r
    · subst har
      rw [if_neg (by simp)]
      have hself : c.filter (fun x => decide (x ≠ a)) = c :=
        List.filter_eq_self.mpr (fun x hx => decide_eq_true (fun h => hac (h ▸ hx)))
      rw [hself]
      simp
    · rw [if_pos (by simp [har])]
      have hrc : r ∈ c := by
        rcases List.mem_cons.mp hr with h | h
        · exact absurd h.symm har
        · exact h
      simp only [List.length_cons]
      rw [ih hnd' hrc]
      have hpos : 0 < c.length := List.length_pos.mpr (List.ne_nil_of_mem hrc)
      omega

/-- The output loop writes exactly the records whose index avoids the removal
set, in input order. -/
theorem output_go_eq_filter {α : Type} (dup : List ℕ) :
    ∀ (rs : List α) (s : ℕ),
      output_go dup s rs =
        ((List.enumFrom s rs).filter (fun p => decide (p.1 ∉ dup))).map Prod.snd := by
  intro rs
  induction rs with
  | nil => intro s; simp [output_go]
  | cons r rs ih =>
    intro s
    rw [output_go]
    by_cases hs : s ∈ dup
    · rw [if_pos hs, ih (s + 1)]
      simp [List.enumFrom, List.filter_cons, hs]
    · rw [if_neg hs, ih (s + 1)]
      simp [List.enumFrom, List.filter_cons, hs]

/-- The output stream is a subsequence of the input stream. -/
theorem output_go_sublist {α : Type} (dup : List ℕ) :
    ∀ (rs : List α) (s : ℕ), (output_go dup s rs).Sublist rs := by
  intro rs
  induction rs with
  | nil => intro s; simp [output_go]
  | cons r rs ih =>
    intro s
    rw [output_go]
    by_cases hs : s ∈ dup
    · rw [if_pos hs]
      exact (ih (s + 1)).cons r
    · rw [if_neg hs]
      exact (ih (s + 1)).cons₂ r

/-! ### Claim theorems -/

/-- C2: every group returned by `find_pcr_duplicates` has size at least 2
(size-1 groups are never materialized), the groups are pairwise disjoint (every
index appears in at most one group), and no group repeats an index. -/
theorem claim_C2 (sigs : List (List ℕ)) (threshold : ℚ) (gs : List (List ℕ))
    (h : find_pcr_duplicates sigs threshold = some gs) :
    (∀ c ∈ gs, 2 ≤ c.length) ∧ DisjointClusters gs ∧ ∀ c ∈ gs, c.Nodup := by
  have hgs := find_pcr_duplicates_some sigs threshold gs h
  have hinv := cluster_loop_invariant (pcr_accept sigs threshold) sigs.length
    (List.range sigs.length) [] [] (by simp) (by simp [DisjointClusters]) (by simp)
  refine ⟨?_, ?_, ?_⟩
  · intro c hc
    obtain ⟨⟨a, d, hcd, hdne, _⟩, _⟩ := hinv.2.2.1 c (hgs ▸ hc)
    rw [hcd, List.length_cons]
    have : 0 < d.length := List.length_pos.mpr hdne
    omega
  · rw [hgs]
    exact hinv.2.1
  · intro c hc
    exact (hinv.2.2.1 c (hgs ▸ hc)).2

/-- Witness for C2 at a concrete input. -/
theorem claim_C2_witness :
    find_pcr_duplicates [[1], [1]] 1 = some [[0, 1]] ∧
      ((∀ c ∈ ([[0, 1]] : List (List ℕ)), 2 ≤ c.length) ∧
        DisjointClusters [[0, 1]] ∧ ∀ c ∈ ([[0, 1]] : List (List ℕ)), c.Nodup) :=
  ⟨by decide, claim_C2 [[1], [1]] 1 [[0, 1]] (by decide)⟩

/-- C3 counterexample: threshold 0.0 is inside the validated domain [0, 1],
yet at that threshold two records with empty fingerprints (similarity 0.0 ≥ 0.0)
are clustered together, and the second is marked for removal — an
empty-fingerprint item is placed in a group and removed. -/
theorem claim_C3_counterexample :
    find_pcr_duplicates [[], []] 0 = some [[0, 1]] ∧
      duplicate_indices [[0, 1]] first_occurrence_rep = [1] :=
  ⟨by decide, by decide⟩

/-- C3 amended: `calculate_jaccard_similarity` returns 0 whenever either input
is empty, and for every *strictly positive* threshold an empty-fingerprint
item is never placed in a group and never removed. -/
theorem claim_C3_amended (sigs : List (List ℕ)) (threshold : ℚ) (x : ℕ)
    (gs : List (List ℕ)) (ht : 0 < threshold) (hx : sigs.getD x [] = [])
    (h : find_pcr_duplicates sigs threshold = some gs) :
    (∀ m, calculate_jaccard_similarity [] m = 0 ∧
      calculate_jaccard_similarity m [] = 0) ∧
    (∀ c ∈ gs, x ∉ c) ∧
    (∀ rep, x ∉ duplicate_indices gs rep) := by
  have hgs := find_pcr_duplicates_some sigs threshold gs h
  have hinv := cluster_loop_invariant (pcr_accept sigs threshold) sigs.length
    (List.range sigs.length) [] [] (by simp) (by simp [DisjointClusters]) (by simp)
  have hnotin : ∀ c ∈ gs, x ∉ c := by
    intro c hc hxc
    obtain ⟨⟨a, d, hcd, hdne, hall⟩, _⟩ := hinv.2.2.1 c (hgs ▸ hc)
    rw [hcd] at hxc
    rcases List.mem_cons.mp hxc with rfl | hxd
    · obtain ⟨y, hy⟩ := List.exists_mem_of_ne_nil d hdne
      obtain ⟨hacc, _, _⟩ := hall y hy
      rw [pcr_accept, hx, calculate_jaccard_similarity_nil_left] at hacc
      exact absurd (of_decide_eq_true hacc) (not_le.mpr ht)
    · obtain ⟨hacc, _, _⟩ := hall x hxd
      rw [pcr_accept, hx, calculate_jaccard_similarity_nil_right] at hacc
      exact absurd (of_decide_eq_true hacc) (not_le.mpr ht)
  refine ⟨fun m => ⟨calculate_jaccard_similarity_nil_left m,
    calculate_jaccard_similarity_nil_right m⟩, hnotin, ?_⟩
  intro rep hmem
  obtain ⟨c, hc, _, hxc, _⟩ := (mem_duplicate_indices gs rep x).mp hmem
  exact hnotin c hc hxc

/-- Witness for the amended C3 at a concrete input. -/
theorem claim_C3_amended_witness :
    (0 : ℚ) < 1/2 ∧ ([[1], [], [1]] : List (List ℕ)).getD 1 [] = [] ∧
      find_pcr_duplicates [[1], [], [1]] (1/2) = some [[0, 2]] ∧
      ((∀ m, calculate_jaccard_similarity [] m = 0 ∧
          calculate_jaccard_similarity m [] = 0) ∧
        (∀ c ∈ ([[0, 2]] : List (List ℕ)), 1 ∉ c) ∧
        (∀ rep, 1 ∉ duplicate_indices [[0, 2]] rep)) :=
  ⟨by decide, by decide, by decide,
    claim_C3_amended [[1], [], [1]] (1/2) 1 [[0, 2]] (by decide) (by decide) (by decide)⟩

/-- C7: on the empty input the batched source loop panics
(`batch_size = min(1000, 0) = 0` and `step_by(0)` asserts), while the
unbatched anchor scan returns no groups — evaluated at the failing input —
and for every non-empty input (equivalently every positive batch size) the
batched loop produces exactly the groups of the unbatched scan, in order. -/
theorem claim_C7 :
    (find_pcr_duplicates [] (4/5) = none ∧
      find_pcr_duplicates_unbatched [] (4/5) = []) ∧
    (∀ (sigs : List (List ℕ)) (threshold : ℚ), sigs ≠ [] →
      find_pcr_duplicates sigs threshold =
        some (find_pcr_duplicates_unbatched sigs threshold)) ∧
    (∀ (sigs : List (List ℕ)) (threshold : ℚ) (b : ℕ), 0 < b →
      (cluster_loop (pcr_accept sigs threshold) sigs.length
          (batches sigs.length b) [] []).1 =
        find_pcr_duplicates_unbatched sigs threshold) := by
  refine ⟨⟨by decide, by decide⟩, find_pcr_duplicates_eq_unbatched, ?_⟩
  intro sigs threshold b hb
  rw [batches_eq_range _ _ hb, find_pcr_duplicates_unbatched]

/-- Witness for C7 at a concrete non-empty input and batch size 2. -/
theorem claim_C7_witness :
    ([[1], [2]] : List (List ℕ)) ≠ [] ∧ 0 < 2 ∧
      find_pcr_duplicates [[1], [2]] (1/2) =
        some (find_pcr_duplicates_unbatched [[1], [2]] (1/2)) ∧
      (cluster_loop (pcr_accept [[1], [2]] (1/2)) ([[1], [2]] : List (List ℕ)).length
          (batches ([[1], [2]] : List (List ℕ)).length 2) [] []).1 =
        find_pcr_duplicates_unbatched [[1], [2]] (1/2) :=
  ⟨by decide, by decide, claim_C7.2.1 [[1], [2]] (1/2) (by decide),
    claim_C7.2.2 [[1], [2]] (1/2) 2 (by decide)⟩

/-- C8 counterexample: the optical tool performs no threshold validation —
a negative distance bound (-1 pixels) is accepted and processing proceeds
normally instead of being rejected before any record is processed. -/
theorem claim_C8_counterexample :
    optical_dedup_main (-1) [create_default_coordinate] = Except.ok [] := rfl

/-- C8 amended: pcr_dedup rejects a Jaccard threshold outside [0, 1] before
any record is processed (the error is produced for every record stream), but
optical_dedup applies no validation to its distance threshold: every
threshold, negative ones included, flows straight into processing. -/
theorem claim_C8_amended (threshold : ℚ) (sigs : List (List ℕ))
    (coords : List IlluminaCoordinate) :
    (pcr_dedup_main threshold sigs =
        Except.error "Similarity threshold must be between 0.0 and 1.0" ↔
      threshold < 0 ∨ 1 < threshold) ∧
    optical_dedup_main threshold coords =
      Except.ok (find_optical_duplicates coords threshold) := by
  constructor
  · rw [pcr_dedup_main]
    by_cases h : threshold < 0 ∨ 1 < threshold
    · simp [h]
    · simp [h]
  · rfl

/-- C10: `calculate_mean_quality` succeeds exactly when every quality byte is
at least 33 (the `q - 33` byte subtraction underflows otherwise), returning
the mean of the offset-corrected values, and returns 0 on an empty quality
string. -/
theorem claim_C10 (quality : List ℕ) :
    calculate_mean_quality quality =
      (if ∀ q ∈ quality, 33 ≤ q then
        some ((((quality.map (fun q => q - 33)).sum : ℕ) : ℚ) / (quality.length : ℚ))
      else none) ∧
    calculate_mean_quality [] = some 0 := by
  refine ⟨?_, rfl⟩
  rw [calculate_mean_quality]
  by_cases hnil : quality = []
  · subst hnil
    simp
  · rw [if_neg hnil]
    by_cases hany : quality.any (fun q => q < 33) = true
    · rw [if_pos hany]
      obtain ⟨q, hq, hlt⟩ := List.any_eq_true.mp hany
      rw [if_neg]
      intro hall
      have := hall q hq
      have := of_decide_eq_true hlt
      omega
    · rw [if_neg hany]
      rw [if_pos]
      intro q hq
      by_contra hqlt
      exact hany (List.any_eq_true.mpr ⟨q, hq, decide_eq_true (by omega)⟩)

/-- Pair preservation: while only anchors below `i` have been processed, two
indices `i < j < n` that every anchor accepts or rejects together are either
both still unassigned or already members of one common cluster. -/
theorem cluster_loop_pair (accept : ℕ → ℕ → Bool) (n i j : ℕ)
    (hacc : ∀ a, accept a i = accept a j) (hij : i < j) (hjn : j < n) :
    ∀ (l : List ℕ) (cs : List (List ℕ)) (A : List ℕ),
      (∀ a ∈ l, a < i) →
      (∀ c ∈ cs, ∀ x ∈ c, x ∈ A) →
      ((i ∉ A ∧ j ∉ A) ∨ ∃ c ∈ cs, i ∈ c ∧ j ∈ c) →
      (∀ c ∈ (cluster_loop accept n l cs A).1, ∀ x ∈ c,
          x ∈ (cluster_loop accept n l cs A).2) ∧
      ((i ∉ (cluster_loop accept n l cs A).2 ∧ j ∉ (cluster_loop accept n l cs A).2) ∨
        ∃ c ∈ (cluster_loop accept n l cs A).1, i ∈ c ∧ j ∈ c) := by
  intro l
  induction l with
  | nil =>
    intro cs A _ h1 hstate
    exact ⟨by simpa [cluster_loop] using h1, by simpa [cluster_loop] using hstate⟩
  | cons a l ih =>
    intro cs A hl h1 hstate
    have ha : a < i := hl a (List.mem_cons_self a l)
    have hl' : ∀ a' ∈ l, a' < i := fun a' ha' => hl a' (List.mem_cons_of_mem _ ha')
    by_cases haA : a ∈ A
    · rw [cluster_loop, if_pos haA]
      exact ih cs A hl' h1 hstate
    · rw [cluster_loop, if_neg haA]
      simp only []
      set p := cluster_scan accept a (List.range' (a + 1) (n - (a + 1))) [a] (a :: A) with hp
      have hjs : (List.range' (a + 1) (n - (a + 1))).Nodup := List.nodup_range' _ _
      have hsub : ∀ y ∈ p.1, y ∈ p.2 := by
        refine cluster_scan_cluster_subset_assigned accept a _ [a] (a :: A) ?_
        intro y hy
        simp [List.mem_singleton.mp hy]
      have hAmono : ∀ y ∈ a :: A, y ∈ p.2 :=
        cluster_scan_assigned_mono accept a _ [a] (a :: A)
      rcases hstate with ⟨hiA, hjA⟩ | ⟨c, hc, hci, hcj⟩
      · have hii : i ∈ p.1 ↔ accept a i = true := by
          rw [hp, mem_cluster_scan_cluster accept a i _ [a] (a :: A) hjs]
          constructor
          · rintro (h | ⟨_, _, h3⟩)
            · exact absurd (List.mem_singleton.mp h) (by omega)
            · exact h3
          · intro h
            right
            refine ⟨(mem_scan_range a n i).mpr ⟨ha, by omega⟩, ?_, h⟩
            intro hmem
            rcases List.mem_cons.mp hmem with h' | h'
            · omega
            · exact hiA h'
        have hjj : j ∈ p.1 ↔ accept a j = true := by
          rw [hp, mem_cluster_scan_cluster accept a j _ [a] (a :: A) hjs]
          constructor
          · rintro (h | ⟨_, _, h3⟩)
            · exact absurd (List.mem_singleton.mp h) (by omega)
            · exact h3
          · intro h
            right
            refine ⟨(mem_scan_range a n j).mpr ⟨by omega, hjn⟩, ?_, h⟩
            intro hmem
            rcases List.mem_cons.mp hmem with h' | h'
            · omega
            · exact hjA h'
        have hpair : (i ∈ p.1) ↔ (j ∈ p.1) := by rw [hii, hjj, hacc a]
        have h1p : ∀ c ∈ cs, ∀ x ∈ c, x ∈ p.2 := by
          intro c hc x hx
          exact hAmono x (List.mem_cons_of_mem _ (h1 c hc x hx))
        by_cases hin : i ∈ p.1
        · have hjn' : j ∈ p.1 := hpair.mp hin
          have hlen : 1 < p.1.length := by
            obtain ⟨d, hd⟩ := cluster_scan_cluster_app accept a _ [a] (a :: A)
            rw [← hp] at hd
            simp only [List.singleton_append] at hd
            have hid : i ∈ d := by
              rw [hd] at hin
              rcases List.mem_cons.mp hin with h' | h'
              · omega
              · exact h'
            rw [hd, List.length_cons]
            have : 0 < d.length := List.length_pos.mpr (List.ne_nil_of_mem hid)
            omega
          rw [if_pos hlen]
          refine ih (cs ++ [p.1]) p.2 hl' ?_ ?_
          · intro c hc x hx
            rcases List.mem_append.mp hc with hc | hc
            · exact h1p c hc x hx
            · rw [List.mem_singleton.mp hc] at hx
              exact hsub x hx
          · exact Or.inr ⟨p.1, List.mem_append_right _ (List.mem_singleton_self _),
              hin, hjn'⟩
        · have hjnotin : j ∉ p.1 := fun h => hin (hpair.mpr h)
          have hinotA : i ∉ p.2 := by
            rw [hp, mem_cluster_scan_assigned accept a i _ [a] (a :: A) hjs]
            rintro (h | ⟨_, h2, h3⟩)
            · rcases List.mem_cons.mp h with h' | h'
              · omega
              · exact hiA h'
            · exact hin (hii.mpr h3)
          have hjnotA : j ∉ p.2 := by
            rw [hp, mem_cluster_scan_assigned accept a j _ [a] (a :: A) hjs]
            rintro (h | ⟨_, h2, h3⟩)
            · rcases List.mem_cons.mp h with h' | h'
              · omega
              · exact hjA h'
            · exact hjnotin (hjj.mpr h3)
          by_cases hlen : 1 < p.1.length
          · rw [if_pos hlen]
            refine ih (cs ++ [p.1]) p.2 hl' ?_ (Or.inl ⟨hinotA, hjnotA⟩)
            intro c hc x hx
            rcases List.mem_append.mp hc with hc | hc
            · exact h1p c hc x hx
            · rw [List.mem_singleton.mp hc] at hx
              exact hsub x hx
          · rw [if_neg hlen]
            exact ih cs p.2 hl' h1p (Or.inl ⟨hinotA, hjnotA⟩)
      · have h1p : ∀ c' ∈ cs, ∀ x ∈ c', x ∈ p.2 := by
          intro c' hc' x hx
          exact hAmono x (List.mem_cons_of_mem _ (h1 c' hc' x hx))
        by_cases hlen : 1 < p.1.length
        · rw [if_pos hlen]
          refine ih (cs ++ [p.1]) p.2 hl' ?_
            (Or.inr ⟨c, List.mem_append_left _ hc, hci, hcj⟩)
          intro c' hc' x hx
          rcases List.mem_append.mp hc' with hc' | hc'
          · exact h1p c' hc' x hx
          · rw [List.mem_singleton.mp hc'] at hx
            exact hsub x hx
        · rw [if_neg hlen]
          exact ih cs p.2 hl' h1p (Or.inr ⟨c, hc, hci, hcj⟩)

/-- Two indices accepted identically by every anchor, with the earlier one
accepting the later one, always land in one common cluster of the full scan. -/
theorem pair_in_same_cluster (accept : ℕ → ℕ → Bool) (n i j : ℕ)
    (hacc : ∀ a, accept a i = accept a j) (haccij : accept i j = true)
    (hij : i < j) (hjn : j < n) :
    ∃ c ∈ (cluster_loop accept n (List.range n) [] []).1, i ∈ c ∧ j ∈ c := by
  have hin : i < n := by omega
  have hsplit : List.range n = List.range' 0 i ++ List.range' i (n - i) := by
    rw [List.range_eq_range']
    have h := List.range'_append 0 i (n - i) 1
    simp only [one_mul, zero_add] at h
    rw [h]
    congr 1
    omega
  rw [hsplit, cluster_loop_append]
  set q := cluster_loop accept n (List.range' 0 i) [] [] with hq
  have hpair := cluster_loop_pair accept n i j hacc hij hjn (List.range' 0 i) [] []
    (by
      intro a haa
      rw [List.mem_range'] at haa
      obtain ⟨k, hk, rfl⟩ := haa
      omega)
    (by simp) (Or.inl (by simp))
  rw [← hq] at hpair
  rcases hpair.2 with ⟨hiq, hjq⟩ | ⟨c, hc, hci, hcj⟩
  · have hrange : List.range' i (n - i) = i :: List.range' (i + 1) (n - i - 1) := by
      have h := List.range'_succ i (n - i - 1) 1
      rw [← h]
      congr 1
      omega
    rw [hrange, cluster_loop, if_neg hiq]
    simp only []
    set p := cluster_scan accept i (List.range' (i + 1) (n - (i + 1))) [i] (i :: q.2) with hp
    have hjs : (List.range' (i + 1) (n - (i + 1))).Nodup := List.nodup_range' _ _
    have hjp : j ∈ p.1 := by
      rw [hp, mem_cluster_scan_cluster accept i j _ [i] (i :: q.2) hjs]
      right
      refine ⟨(mem_scan_range i n j).mpr ⟨hij, hjn⟩, ?_, haccij⟩
      intro hmem
      rcases List.mem_cons.mp hmem with h' | h'
      · omega
      · exact hjq h'
    have hip : i ∈ p.1 := by
      rw [hp, mem_cluster_scan_cluster accept i i _ [i] (i :: q.2) hjs]
      exact Or.inl (List.mem_singleton_self i)
    have hlen : 1 < p.1.length := by
      obtain ⟨d, hd⟩ := cluster_scan_cluster_app accept i _ [i] (i :: q.2)
      rw [← hp] at hd
      simp only [List.singleton_append] at hd
      have hjd : j ∈ d := by
        rw [hd] at hjp
        rcases List.mem_cons.mp hjp with h' | h'
        · omega
        · exact h'
      rw [hd, List.length_cons]
      have : 0 < d.length := List.length_pos.mpr (List.ne_nil_of_mem hjd)
      omega
    rw [if_pos hlen]
    exact ⟨p.1, cluster_loop_mem_mono _ _ _ _ _ _
      (List.mem_append_right _ (List.mem_singleton_self _)), hip, hjp⟩
  · exact ⟨c, cluster_loop_mem_mono _ _ _ _ _ _ hc, hci, hcj⟩

/-- C9: the Jaccard similarity of a non-empty fingerprint with itself is 1
(the metric's maximum), and two records with identical non-empty fingerprints
are always placed in the same cluster at any threshold at most 1. -/
theorem claim_C9 (sigs : List (List ℕ)) (threshold : ℚ) (i j : ℕ)
    (hij : i < j) (hjn : j < sigs.length)
    (heq : sigs.getD i [] = sigs.getD j []) (hne : sigs.getD i [] ≠ [])
    (ht : threshold ≤ 1) :
    calculate_jaccard_similarity (sigs.getD i []) (sigs.getD i []) = 1 ∧
    ∀ gs, find_pcr_duplicates sigs threshold = some gs →
      ∃ c ∈ gs, i ∈ c ∧ j ∈ c := by
  have hself := calculate_jaccard_similarity_self _ hne
  refine ⟨hself, ?_⟩
  intro gs h
  rw [find_pcr_duplicates_some sigs threshold gs h]
  refine pair_in_same_cluster (pcr_accept sigs threshold) sigs.length i j ?_ ?_ hij hjn
  · intro a
    rw [pcr_accept, pcr_accept, heq]
  · rw [pcr_accept]
    exact decide_eq_true (by rw [← heq, hself]; exact ht)

/-- Witness for C9 at a concrete input. -/
theorem claim_C9_witness :
    0 < 1 ∧ 1 < ([[5], [5]] : List (List ℕ)).length ∧
      ([[5], [5]] : List (List ℕ)).getD 0 [] = ([[5], [5]] : List (List ℕ)).getD 1 [] ∧
      ([[5], [5]] : List (List ℕ)).getD 0 [] ≠ [] ∧ (1 : ℚ) ≤ 1 ∧
      (calculate_jaccard_similarity (([[5], [5]] : List (List ℕ)).getD 0 [])
          (([[5], [5]] : List (List ℕ)).getD 0 []) = 1 ∧
        ∀ gs, find_pcr_duplicates [[5], [5]] 1 = some gs →
          ∃ c ∈ gs, 0 ∈ c ∧ 1 ∈ c) :=
  ⟨by decide, by decide, by decide, by decide, by decide,
    claim_C9 [[5], [5]] 1 0 1 (by decide) (by decide) (by decide) (by decide) (by decide)⟩

/-- Specification of the best-quality fold: starting from a current best `b`
with mean quality `bq`, over a strictly increasing candidate list whose means
are all defined, the fold returns either `b` itself (when nothing strictly
beats `bq`) or a later candidate with a strictly greater mean; the result's
mean dominates every candidate's mean, and the result is the least index
among the candidates attaining that mean. -/
theorem select_loop_spec (records : List (List ℕ)) :
    ∀ (xs : List ℕ) (b : ℕ) (bq : ℚ),
      calculate_mean_quality (records.getD b []) = some bq →
      ((b :: xs).Pairwise (· < ·)) →
      (∀ x ∈ xs, (calculate_mean_quality (records.getD x [])).isSome = true) →
      ∃ r qr, select_loop records xs b bq = some r ∧
        calculate_mean_quality (records.getD r []) = some qr ∧
        ((r = b ∧ qr = bq) ∨ (r ∈ xs ∧ bq < qr)) ∧
        (∀ x ∈ xs, ∀ qx,
          calculate_mean_quality (records.getD x []) = some qx → qx ≤ qr) ∧
        (∀ x ∈ xs, calculate_mean_quality (records.getD x []) = some qr → r ≤ x) := by
  intro xs
  induction xs with
  | nil =>
    intro b bq hb _ _
    exact ⟨b, bq, by rw [select_loop], hb, Or.inl ⟨rfl, rfl⟩, by simp, by simp⟩
  | cons x xs ih =>
    intro b bq hb hsort hall
    obtain ⟨qx, hx⟩ := Option.isSome_iff_exists.mp (hall x (List.mem_cons_self x xs))
    have hbx : b < x := (List.pairwise_cons.mp hsort).1 x (List.mem_cons_self x xs)
    have hbxs : ∀ y ∈ xs, b < y := fun y hy =>
      (List.pairwise_cons.mp hsort).1 y (List.mem_cons_of_mem _ hy)
    have hxxs : (x :: xs).Pairwise (· < ·) := (List.pairwise_cons.mp hsort).2
    have hbsort : (b :: xs).Pairwise (· < ·) := by
      rw [List.pairwise_cons]
      exact ⟨hbxs, (List.pairwise_cons.mp hxxs).2⟩
    have hall' : ∀ y ∈ xs, (calculate_mean_quality (records.getD y [])).isSome = true :=
      fun y hy => hall y (List.mem_cons_of_mem _ hy)
    have hstep : select_loop records (x :: xs) b bq =
        (if bq < qx then select_loop records xs x qx else select_loop records xs b bq) := by
      rw [select_loop, hx]
    by_cases hlt : bq < qx
    · rw [if_pos hlt] at hstep
      obtain ⟨r, qr, h1, h2, h3, h4, h5⟩ := ih x qx hx hxxs hall'
      refine ⟨r, qr, hstep ▸ h1, h2, ?_, ?_, ?_⟩
      · rcases h3 with ⟨rfl, rfl⟩ | ⟨hr, hqr⟩
        · exact Or.inr ⟨List.mem_cons_self _ _, hlt⟩
        · exact Or.inr ⟨List.mem_cons_of_mem _ hr, lt_trans hlt hqr⟩
      · intro y hy qy hqy
        rcases List.mem_cons.mp hy with rfl | hy
        · rw [hqy] at hx
          have hyx : qy = qx := Option.some_inj.mp hx
          rw [hyx]
          rcases h3 with ⟨_, rfl⟩ | ⟨_, hqr⟩
          · exact le_refl _
          · exact le_of_lt hqr
        · exact h4 y hy qy hqy
      · intro y hy hqy
        rcases List.mem_cons.mp hy with rfl | hy
        · rcases h3 with ⟨rfl, rfl⟩ | ⟨hr, hqr⟩
          · exact le_refl _
          · rw [hqy] at hx
            have hrx : qr = qx := Option.some_inj.mp hx
            rw [hrx] at hqr
            exact absurd hqr (lt_irrefl qx)
        · exact h5 y hy hqy
    · rw [if_neg hlt] at hstep
      have hxle : qx ≤ bq := not_lt.mp hlt
      obtain ⟨r, qr, h1, h2, h3, h4, h5⟩ := ih b bq hb hbsort hall'
      have hbqr : bq ≤ qr := by
        rcases h3 with ⟨_, rfl⟩ | ⟨_, hqr⟩
        · exact le_refl _
        · exact le_of_lt hqr
      refine ⟨r, qr, hstep ▸ h1, h2, ?_, ?_, ?_⟩
      · rcases h3 with ⟨hr, hqr⟩ | ⟨hr, hqr⟩
        · exact Or.inl ⟨hr, hqr⟩
        · exact Or.inr ⟨List.mem_cons_of_mem _ hr, hqr⟩
      · intro y hy qy hqy
        rcases List.mem_cons.mp hy with rfl | hy
        · rw [hqy] at hx
          have hyx : qy = qx := Option.some_inj.mp hx
          rw [hyx]
          exact le_trans hxle hbqr
        · exact h4 y hy qy hqy
      · intro y hy hqy
        rcases List.mem_cons.mp hy with rfl | hy
        · rcases h3 with ⟨rfl, rfl⟩ | ⟨hr, hqr⟩
          · exact le_of_lt hbx
          · rw [hqy] at hx
            have hrx : qr = qx := Option.some_inj.mp hx
            rw [hrx] at hqr
            exact absurd (lt_of_lt_of_le hqr hxle) (lt_irrefl bq)
        · exact h5 y hy hqy

/-- C5: for every non-empty group (sorted in original index order, as the
clustering engine produces, with all means defined), the first-occurrence
policy returns the group's first element `cluster[0]`, which is the lowest
original index, and the best-quality policy returns a member maximizing the
mean decoded quality, ties broken by the lowest index. -/
theorem claim_C5 (cluster : List ℕ) (records : List (List ℕ))
    (hne : cluster ≠ []) (hsort : cluster.Pairwise (· < ·))
    (hq : ∀ x ∈ cluster, (calculate_mean_quality (records.getD x [])).isSome = true) :
    (first_occurrence_rep cluster ∈ cluster ∧
      ∀ x ∈ cluster, first_occurrence_rep cluster ≤ x) ∧
    ∃ r qr, select_best_quality_read cluster records = some r ∧ r ∈ cluster ∧
      calculate_mean_quality (records.getD r []) = some qr ∧
      (∀ x ∈ cluster, ∀ qx,
        calculate_mean_quality (records.getD x []) = some qx → qx ≤ qr) ∧
      (∀ x ∈ cluster, calculate_mean_quality (records.getD x []) = some qr → r ≤ x) := by
  obtain ⟨c0, rest, rfl⟩ := List.exists_cons_of_ne_nil hne
  obtain ⟨q0, hq0⟩ := Option.isSome_iff_exists.mp (hq c0 (List.mem_cons_self c0 rest))
  have hhead : ∀ y ∈ rest, c0 < y := (List.pairwise_cons.mp hsort).1
  constructor
  · refine ⟨List.mem_cons_self _ _, ?_⟩
    intro x hx
    rcases List.mem_cons.mp hx with rfl | hx
    · exact le_refl _
    · exact le_of_lt (hhead x hx)
  · have hstep : select_best_quality_read (c0 :: rest) records =
        select_loop records rest c0 q0 := by
      rw [select_best_quality_read, hq0]
    obtain ⟨r, qr, h1, h2, h3, h4, h5⟩ := select_loop_spec records rest c0 q0 hq0 hsort
      (fun y hy => hq y (List.mem_cons_of_mem _ hy))
    refine ⟨r, qr, hstep ▸ h1, ?_, h2, ?_, ?_⟩
    · rcases h3 with ⟨rfl, _⟩ | ⟨hr, _⟩
      · exact List.mem_cons_self _ _
      · exact List.mem_cons_of_mem _ hr
    · intro x hx qx hqx
      rcases List.mem_cons.mp hx with rfl | hx
      · rw [hqx] at hq0
        have hx0 : q0 = qx := Option.some_inj.mp hq0.symm
        rcases h3 with ⟨_, rfl⟩ | ⟨_, hqr⟩
        · exact le_of_eq hx0.symm
        · rw [← hx0]
          exact le_of_lt hqr
      · exact h4 x hx qx hqx
    · intro x hx hqx
      rcases List.mem_cons.mp hx with rfl | hx
      · rcases h3 with ⟨rfl, _⟩ | ⟨hr, hqr⟩
        · exact le_refl _
        · rw [hqx] at hq0
          have hx0 : q0 = qr := Option.some_inj.mp hq0.symm
          rw [← hx0] at hqr
          exact absurd hqr (lt_irrefl q0)
      · exact h5 x hx hqx

/-- Witness for C5: the spec's own scenario — group {A, B} with mean
qualities 30 and 35 (quality bytes 63 and 68); best-quality picks B. -/
theorem claim_C5_witness :
    ([0, 1] : List ℕ) ≠ [] ∧ ([0, 1] : List ℕ).Pairwise (· < ·) ∧
      (∀ x ∈ ([0, 1] : List ℕ),
        (calculate_mean_quality (([[63], [68]] : List (List ℕ)).getD x [])).isSome = true) ∧
      ((first_occurrence_rep [0, 1] ∈ ([0, 1] : List ℕ) ∧
          ∀ x ∈ ([0, 1] : List ℕ), first_occurrence_rep [0, 1] ≤ x) ∧
        ∃ r qr, select_best_quality_read [0, 1] [[63], [68]] = some r ∧
          r ∈ ([0, 1] : List ℕ) ∧
          calculate_mean_quality (([[63], [68]] : List (List ℕ)).getD r []) = some qr ∧
          (∀ x ∈ ([0, 1] : List ℕ), ∀ qx,
            calculate_mean_quality (([[63], [68]] : List (List ℕ)).getD x []) = some qx →
              qx ≤ qr) ∧
          (∀ x ∈ ([0, 1] : List ℕ),
            calculate_mean_quality (([[63], [68]] : List (List ℕ)).getD x []) = some qr →
              r ≤ x)) :=
  ⟨by decide, by decide, by decide,
    claim_C5 [0, 1] [[63], [68]] (by decide) (by decide) (by decide)⟩

/-- C6: the removal set is exactly the union over groups of size > 1 of the
group minus its chosen representative; it removes `|group| − 1` members from
every such group; and the output stream is exactly the subsequence of the
input stream at the non-removed indices, in original input order. -/
theorem claim_C6 {α : Type} (records : List α) (gs : List (List ℕ))
    (rep : List ℕ → ℕ) (hdisj : DisjointClusters gs) (hnd : ∀ c ∈ gs, c.Nodup)
    (hrep : ∀ c ∈ gs, 1 < c.length → rep c ∈ c) :
    (∀ x, x ∈ duplicate_indices gs rep ↔
      ∃ c ∈ gs, 1 < c.length ∧ x ∈ c ∧ x ≠ rep c) ∧
    (∀ c ∈ gs, 1 < c.length →
      (c.filter (fun x => decide (x ∈ duplicate_indices gs rep))).length =
        c.length - 1) ∧
    output_records records (duplicate_indices gs rep) =
      ((records.enum.filter
        (fun p => decide (p.1 ∉ duplicate_indices gs rep))).map Prod.snd) ∧
    (output_records records (duplicate_indices gs rep)).Sublist records := by
  refine ⟨mem_duplicate_indices gs rep, ?_, ?_, ?_⟩
  · intro c hc hlen
    have hmem : ∀ x ∈ c, (x ∈ duplicate_indices gs rep ↔ x ≠ rep c) := by
      intro x hx
      rw [mem_duplicate_indices]
      constructor
      · rintro ⟨c', hc', hlen', hx', hne'⟩
        have hcc : c = c' :=
          disjoint_clusters_mem_unique gs hdisj c hc c' hc' x hx hx'
        rw [hcc]
        exact hne'
      · intro hne
        exact ⟨c, hc, hlen, hx, hne⟩
    have hcongr : c.filter (fun x => decide (x ∈ duplicate_indices gs rep)) =
        c.filter (fun x => x ≠ rep c) := by
      refine List.filter_congr ?_
      intro x hx
      exact decide_eq_decide.mpr (hmem x hx)
    rw [hcongr]
    exact length_filter_ne c (hnd c hc) (rep c) (hrep c hc hlen)
  · rw [output_records, output_go_eq_filter]
    rfl
  · exact output_go_sublist _ records 0

/-- Witness for C6 at a concrete input: group {0, 2} of the three-record
stream [10, 20, 30], first-occurrence representative. -/
theorem claim_C6_witness :
    DisjointClusters [[0, 2]] ∧ (∀ c ∈ ([[0, 2]] : List (List ℕ)), c.Nodup) ∧
      (∀ c ∈ ([[0, 2]] : List (List ℕ)), 1 < c.length → first_occurrence_rep c ∈ c) ∧
      ((∀ x, x ∈ duplicate_indices [[0, 2]] first_occurrence_rep ↔
          ∃ c ∈ ([[0, 2]] : List (List ℕ)), 1 < c.length ∧ x ∈ c ∧
            x ≠ first_occurrence_rep c) ∧
        (∀ c ∈ ([[0, 2]] : List (List ℕ)), 1 < c.length →
          (c.filter (fun x =>
            decide (x ∈ duplicate_indices [[0, 2]] first_occurrence_rep))).length =
            c.length - 1) ∧
        output_records [10, 20, 30]
            (duplicate_indices [[0, 2]] first_occurrence_rep) =
          ((([10, 20, 30] : List ℕ).enum.filter
            (fun p => decide
              (p.1 ∉ duplicate_indices [[0, 2]] first_occurrence_rep))).map Prod.snd) ∧
        (output_records [10, 20, 30]
          (duplicate_indices [[0, 2]] first_occurrence_rep)).Sublist [10, 20, 30]) :=
  ⟨by unfold DisjointClusters; decide, by decide, by decide,
    claim_C6 [10, 20, 30] [[0, 2]] first_occurrence_rep
      (by unfold DisjointClusters; decide) (by decide) (by decide)⟩

/-- C1: greedy anchor-only chained assignment on three items A, B, C in that
order with sim(A,B) ≥ t, sim(A,C) < t and sim(B,C) ≥ t: the single group
{A, B} forms (A is the anchor), and C — compared only against anchor A, never
against the admitted member B — remains unclustered. -/
theorem claim_C1 (sA sB sC : List ℕ) (threshold : ℚ)
    (hAB : threshold ≤ calculate_jaccard_similarity sA sB)
    (hAC : calculate_jaccard_similarity sA sC < threshold)
    (hBC : threshold ≤ calculate_jaccard_similarity sB sC) :
    find_pcr_duplicates [sA, sB, sC] threshold = some [[0, 1]] := by
  have e01 : pcr_accept [sA, sB, sC] threshold 0 1 = true := by
    show decide (threshold ≤ calculate_jaccard_similarity sA sB) = true
    exact decide_eq_true hAB
  have e02 : pcr_accept [sA, sB, sC] threshold 0 2 = false := by
    show decide (threshold ≤ calculate_jaccard_similarity sA sC) = false
    exact decide_eq_false (not_le.mpr hAC)
  rw [find_pcr_duplicates_eq_unbatched [sA, sB, sC] threshold (by simp)]
  rw [Option.some_inj, find_pcr_duplicates_unbatched]
  rw [show ([sA, sB, sC] : List (List ℕ)).length = 3 from rfl]
  rw [show List.range 3 = [0, 1, 2] from rfl]
  rw [cluster_loop, if_neg (List.not_mem_nil 0)]
  simp only []
  rw [show List.range' (0 + 1) (3 - (0 + 1)) = [1, 2] from rfl]
  rw [cluster_scan, if_neg (by decide : ¬ (1 : ℕ) ∈ [0]), e01, if_pos rfl]
  rw [cluster_scan, if_neg (by decide : ¬ (2 : ℕ) ∈ [1, 0]), e02,
    if_neg (by simp : ¬ (false = true))]
  rw [cluster_scan]
  rw [if_pos (by decide : 1 < (([0] ++ [1] : List ℕ)).length)]
  rw [cluster_loop, if_pos (by decide : (1 : ℕ) ∈ [1, 0])]
  rw [cluster_loop, if_neg (by decide : ¬ (2 : ℕ) ∈ [1, 0])]
  simp only []
  rw [show List.range' (2 + 1) (3 - (2 + 1)) = [] from rfl]
  rw [cluster_scan]
  rw [if_neg (by decide : ¬ 1 < (([2] : List ℕ)).length)]
  rw [cluster_loop]
  rfl

/-- Witness for C1: concrete fingerprints realizing the scenario at
threshold 4/5 — sim(A,B) = 9/11 ≥ 4/5, sim(A,C) = 2/3 < 4/5,
sim(B,C) = 9/11 ≥ 4/5; the result is the single group {0, 1}. -/
theorem claim_C1_witness :
    ((4 : ℚ)/5 ≤ calculate_jaccard_similarity
        [1, 2, 3, 4, 5, 6, 7, 8, 9, 10] [1, 2, 3, 4, 5, 6, 7, 8, 9, 11]) ∧
    (calculate_jaccard_similarity
        [1, 2, 3, 4, 5, 6, 7, 8, 9, 10] [1, 2, 3, 4, 5, 6, 7, 8, 11, 12] < 4/5) ∧
    ((4 : ℚ)/5 ≤ calculate_jaccard_similarity
        [1, 2, 3, 4, 5, 6, 7, 8, 9, 11] [1, 2, 3, 4, 5, 6, 7, 8, 11, 12]) ∧
    find_pcr_duplicates
        [[1, 2, 3, 4, 5, 6, 7, 8, 9, 10], [1, 2, 3, 4, 5, 6, 7, 8, 9, 11],
          [1, 2, 3, 4, 5, 6, 7, 8, 11, 12]] (4/5) = some [[0, 1]] :=
  ⟨by decide, by decide, by decide,
    claim_C1 [1, 2, 3, 4, 5, 6, 7, 8, 9, 10] [1, 2, 3, 4, 5, 6, 7, 8, 9, 11]
      [1, 2, 3, 4, 5, 6, 7, 8, 11, 12] (4/5) (by decide) (by decide) (by decide)⟩

/-- C4 (failing-input evaluation): two reads with unparseable positional
metadata both receive the one shared sentinel coordinate
(`create_default_coordinate`), whose lane, tile and (x, y) coincide; under the
spec's positional proximity contract they are grouped as optical duplicates at
the default 10-pixel threshold, and the second such read is marked for removal
and dropped from the output — contradicting the claimed sentinel isolation. -/
theorem claim_C4 :
    find_optical_duplicates [create_default_coordinate, create_default_coordinate] 10 =
      [[0, 1]] ∧
    duplicate_indices [[0, 1]] first_occurrence_rep = [1] ∧
    output_records [0, 1] (duplicate_indices [[0, 1]] first_occurrence_rep) = [0] :=
  ⟨by decide, by decide, by decide⟩

/-- The inner scan appends the accepted candidates in scan order: the new
cluster tail is an in-order subsequence of the candidate list. -/
theorem cluster_scan_cluster_sublist (accept : ℕ → ℕ → Bool) (i : ℕ) :
    ∀ (js c A : List ℕ), ∃ d, (cluster_scan accept i js c A).1 = c ++ d ∧
      d.Sublist js := by
  intro js
  induction js with
  | nil => intro c A; exact ⟨[], by simp [cluster_scan], List.Sublist.refl []⟩
  | cons j js ih =>
    intro c A
    rw [cluster_scan]
    by_cases hjA : j ∈ A
    · rw [if_pos hjA]
      obtain ⟨d, hd, hs⟩ := ih c A
      exact ⟨d, hd, hs.cons j⟩
    · rw [if_neg hjA]
      by_cases hacc : accept i j = true
      · rw [if_pos hacc]
        obtain ⟨d, hd, hs⟩ := ih (c ++ [j]) (j :: A)
        exact ⟨j :: d, by simp [hd], hs.cons₂ j⟩
      · rw [if_neg hacc]
        obtain ⟨d, hd, hs⟩ := ih c A
        exact ⟨d, hd, hs.cons j⟩

/-- Every cluster the anchor loop materializes is strictly increasing in the
original index order (anchor first, then candidates in scan order). -/
theorem cluster_loop_sorted (accept : ℕ → ℕ → Bool) (n : ℕ) :
    ∀ (is : List ℕ) (cs : List (List ℕ)) (A : List ℕ),
      (∀ c ∈ cs, c.Pairwise (· < ·)) →
      ∀ c ∈ (cluster_loop accept n is cs A).1, c.Pairwise (· < ·) := by
  intro is
  induction is with
  | nil => intro cs A h; simpa [cluster_loop] using h
  | cons i is ih =>
    intro cs A h
    by_cases hiA : i ∈ A
    · rw [cluster_loop, if_pos hiA]
      exact ih cs A h
    · rw [cluster_loop, if_neg hiA]
      simp only []
      set p := cluster_scan accept i (List.range' (i + 1) (n - (i + 1))) [i] (i :: A) with hp
      by_cases hlen : 1 < p.1.length
      · rw [if_pos hlen]
        refine ih (cs ++ [p.1]) p.2 ?_
        intro c hc
        rcases List.mem_append.mp hc with hc | hc
        · exact h c hc
        · rw [List.mem_singleton.mp hc]
          obtain ⟨d, hd, hs⟩ := cluster_scan_cluster_sublist accept i
            (List.range' (i + 1) (n - (i + 1))) [i] (i :: A)
          rw [← hp] at hd
          have hd' : p.1 = i :: d := by simpa using hd
          rw [hd', List.pairwise_cons]
          constructor
          · intro x hx
            have hx' : x ∈ List.range' (i + 1) (n - (i + 1)) := hs.mem hx
            exact ((mem_scan_range i n x).mp hx').1
          · exact List.Pairwise.sublist hs (List.pairwise_lt_range' (i + 1) (n - (i + 1)))
      · rw [if_neg hlen]
        exact ih cs p.2 h

/-- The groups returned by `find_pcr_duplicates` are sorted by original index
(lowest index — the anchor — first), discharging the ordering hypothesis of
the representative-selection theorem for actual pipeline groups. -/
theorem find_pcr_duplicates_sorted (sigs : List (List ℕ)) (threshold : ℚ)
    (gs : List (List ℕ)) (h : find_pcr_duplicates sigs threshold = some gs) :
    ∀ c ∈ gs, c.Pairwise (· < ·) := by
  rw [find_pcr_duplicates_some sigs threshold gs h]
  exact cluster_loop_sorted (pcr_accept sigs threshold) sigs.length
    (List.range sigs.length) [] [] (by simp)
